import Mathlib

/-!
Verification development for the `bina` entity-component runtime
(`bina-ecs`): a shallow embedding, in Lean, of the mutation-staging
field (`component.rs`), the entity buffer (`entity.rs`) and the
scheduler (`universe.rs`), together with theorems settling the spec's
testable properties against the embedded code.
-/

namespace Bina

/-! ## Mutation-staging field (`component.rs`)

`NumberField<T>` holds the authoritative value `number : T` and an
atomic accumulator `new_number : T::Atomic`.  `T::new_atomic()` is
`Default::default()`, i.e. the accumulator starts at zero.  We model
the integer instantiations with `Int`; all concrete scenarios below
stay far from the wrap-around range of the machine types, so plain
integer arithmetic coincides with the wrapping arithmetic of the
source. -/

structure NumberField where
  number : Int
  new_number : Int
  deriving Repr, DecidableEq

/-- Model of `NumberField::new(number)`: the accumulator is `T::new_atomic()`,
which is `Default::default()` — zero. -/
def NumberField.new (n : Int) : NumberField :=
  { number := n, new_number := 0 }

/-- A `NumberFieldRef`: the copyable view returned by `get_ref`,
holding a local copy of the authoritative value. -/
structure NumberFieldRef where
  number : Int
  deriving Repr, DecidableEq

/-- Model of `NumberField::get_ref`. -/
def NumberField.get_ref (f : NumberField) : NumberFieldRef :=
  { number := f.number }

/-- Model of `AddAssign for NumberFieldRef`: `T::add_assign(&mut self.number, rhs)`
on the local copy, and `atomic_add_assign(&self.reference.new_number, rhs)`
(a `fetch_add`) on the shared accumulator.  Returns the updated view and
the updated shared field. -/
def add_assign (r : NumberFieldRef) (f : NumberField) (rhs : Int) :
    NumberFieldRef × NumberField :=
  ({ number := r.number + rhs }, { f with new_number := f.new_number + rhs })

/-- Model of `SubAssign for NumberFieldRef`, analogously via `fetch_sub`. -/
def sub_assign (r : NumberFieldRef) (f : NumberField) (rhs : Int) :
    NumberFieldRef × NumberField :=
  ({ number := r.number - rhs }, { f with new_number := f.new_number - rhs })

/-- Model of `NumberFieldRef::set`: `T::store(&self.reference.new_number, value)`. -/
def NumberFieldRef.set (f : NumberField) (value : Int) : NumberField :=
  { f with new_number := value }

/-- Model of `ComponentField::process_modifiers for NumberField`:
`self.number = T::load(&mut self.new_number)` — the authoritative value
is replaced by the accumulator's content. -/
def process_modifiers (f : NumberField) : NumberField :=
  { f with number := f.new_number }

/-- The state of the field after queuing `Add a` through one view
obtained from `get_ref` and `Add b` through another, then flushing. -/
def twoAddsFlushed (v a b : Int) : NumberField :=
  let f0 := NumberField.new v
  let r1 := f0.get_ref
  let r2 := f0.get_ref
  let
    s1 := add_assign r1 f0 a
  let
    s2 := add_assign r2 s1.2 b
  process_modifiers s2.2

/-- C1: queuing `Add(5)` and `Add(3)` against a `NumberField` with
authoritative base value 43 and then flushing yields 8, not 43+8=51:
`process_modifiers` replaces the base with the accumulator, which
starts at zero and is never seeded with the base value.  The
order-independence half of the claim does hold: the two queueing
orders produce the same field. -/
theorem C1_flush_drops_base :
    (twoAddsFlushed 43 5 3).number = 8 ∧
    (twoAddsFlushed 43 5 3).number ≠ 43 + 8 ∧
    ∀ v a b : Int, twoAddsFlushed v a b = twoAddsFlushed v b a := by
  refine ⟨rfl, by decide, ?_⟩
  intro v a b
  simp [twoAddsFlushed, add_assign, process_modifiers, NumberField.new,
    NumberField.get_ref]
  ring

/-! ## Entity buffer (`entity.rs`)

`EntityBufferStruct<E>` holds a dense `Vec<EntityWrapper<E>>`, a queue
of pending additions and a queue of pending removal indices.  Each
wrapper owns an `Arc<AtomicCell<EntityIndex>>` shared with outstanding
external references; we model the heap of those cells as a total map
`cells : Nat → EntityIndex` indexed by an allocation counter
`nextCell` (ids `≥ nextCell` are not yet allocated), and each wrapper
records the id of its cell. -/

inductive EntityIndex where
  | moving : EntityIndex
  | alive : Nat → EntityIndex
  | freed : EntityIndex
  deriving Repr, DecidableEq

structure EntityWrapper (E : Type) where
  entity : E
  cellId : Nat
  deriving Repr, DecidableEq

structure EntityBufferStruct (E : Type) where
  buffer : List (EntityWrapper E)
  pending_adds : List E
  pending_removes : List Nat
  cells : Nat → EntityIndex
  nextCell : Nat

/-- Model of `EntityBufferStruct::new` (`remove_buffer` is empty between
flushes and is modelled inside `flush`; no cells are allocated yet). -/
def EntityBufferStruct.new (E : Type) : EntityBufferStruct E :=
  { buffer := [], pending_adds := [], pending_removes := [],
    cells := fun _ => EntityIndex.freed, nextCell := 0 }

/-- Model of `EntityBufferStruct::queue_add_entity`: push onto the `SegQueue`. -/
def EntityBufferStruct.queue_add_entity (b : EntityBufferStruct E) (e : E) :
    EntityBufferStruct E :=
  { b with pending_adds := b.pending_adds ++ [e] }

/-- Model of `EntityBufferStruct::queue_remove_entity`: indices out of the
current range are silently dropped. -/
def EntityBufferStruct.queue_remove_entity (b : EntityBufferStruct E)
    (index : Nat) : EntityBufferStruct E :=
  if b.buffer.length ≤ index then b
  else { b with pending_removes := b.pending_removes ++ [index] }

/-- Draining the `BinaryHeap` via `drain_sorted` yields the removal
indices in descending order. -/
def sortDesc (l : List Nat) : List Nat :=
  List.insertionSort (fun a b => a ≥ b) l

/-- The `last` variable in the removal loop skips an index equal to
the previously processed one: consecutive duplicates are dropped.
`dedupConsecAux a l` processes `l` with `last = Some a`. -/
def dedupConsecAux (a : Nat) : List Nat → List Nat
  | [] => []
  | y :: rest =>
    if a = y then dedupConsecAux a rest else y :: dedupConsecAux y rest

/-- The removal loop's dedup: the first index is always processed
(`last` starts as `None`), later ones are skipped when equal to the
previously processed one. -/
def dedupConsec : List Nat → List Nat
  | [] => []
  | x :: rest => x :: dedupConsecAux x rest

/-- The sequence of removal indices actually processed by `flush`:
the queued indices, sorted descending, consecutive duplicates
dropped. -/
def collectRemovals (l : List Nat) : List Nat :=
  dedupConsec (sortDesc l)

/-- Pointwise update of the cell heap (a store to one
`AtomicCell<EntityIndex>`). -/
def updateCell (cells : Nat → EntityIndex) (c : Nat) (v : EntityIndex) :
    Nat → EntityIndex :=
  fun x => if x = c then v else cells x

/-- One iteration of the removal loop in `EntityBufferStruct::flush`:
swap `Freed` into the removed entity's cell (keeping the old value),
then either pop (when it is the last element) or mark the last
element's cell `Moving`, swap-remove, and store the old index into the
cell of the element that now occupies `index`.  Indices out of range
cannot occur (they are rejected by `queue_remove_entity`, and the
source uses `get_unchecked`); the model leaves the state unchanged
there. -/
def removeOne (st : List (EntityWrapper E) × (Nat → EntityIndex))
    (index : Nat) : List (EntityWrapper E) × (Nat → EntityIndex) :=
  let buf := st.1
  let cells := st.2
  match buf[index]? with
  | none => st
  | some removed =>
    let old := cells removed.cellId
    let cells1 := updateCell cells removed.cellId EntityIndex.freed
    if index = buf.length - 1 then
      (buf.dropLast, cells1)
    else
      match buf.getLast? with
      | none => (buf.dropLast, cells1)
      | some lastW =>
        let cells2 := updateCell cells1 lastW.cellId EntityIndex.moving
        let buf2 := (buf.set index lastW).dropLast
        match buf2[index]? with
        | some moved => (buf2, updateCell cells2 moved.cellId old)
        | none => (buf2, cells2)

/-- The whole removal loop of `flush`. -/
def removeAll : List Nat → List (EntityWrapper E) × (Nat → EntityIndex) →
    List (EntityWrapper E) × (Nat → EntityIndex)
  | [], st => st
  | i :: rest, st => removeAll rest (removeOne st i)

/-- The append loop of `flush`: each pending entity is wrapped with a
freshly allocated cell initialized to `Alive(buffer.len())` and pushed. -/
def appendAdds : List E → List (EntityWrapper E) → (Nat → EntityIndex) →
    Nat → List (EntityWrapper E) × (Nat → EntityIndex) × Nat
  | [], buf, cells, nc => (buf, cells, nc)
  | e :: rest, buf, cells, nc =>
    appendAdds rest (buf ++ [{ entity := e, cellId := nc }])
      (updateCell cells nc (EntityIndex.alive buf.length)) (nc + 1)

/-- Model of `EntityBufferStruct::flush`.  `ef` is the per-entity
`Entity::flush` (staged-field application) run over the live buffer
before structural changes. -/
def EntityBufferStruct.flush (ef : E → E) (b : EntityBufferStruct E) :
    EntityBufferStruct E :=
  let buf0 := b.buffer.map fun w => { w with entity := ef w.entity }
  let st := removeAll (collectRemovals b.pending_removes) (buf0, b.cells)
  let fin := appendAdds b.pending_adds st.1 st.2 b.nextCell
  { buffer := fin.1, pending_adds := [], pending_removes := [],
    cells := fin.2.1, nextCell := fin.2.2 }

/-! ### Properties of the removal-index preprocessing -/

lemma sortDesc_perm (l : List Nat) : (sortDesc l).Perm l :=
  List.perm_insertionSort _ l

lemma sortDesc_sorted (l : List Nat) :
    (sortDesc l).Pairwise (fun a b => a ≥ b) :=
  List.sorted_insertionSort _ l

lemma mem_sortDesc {x : Nat} {l : List Nat} : x ∈ sortDesc l ↔ x ∈ l :=
  (sortDesc_perm l).mem_iff

lemma mem_dedupConsecAux : ∀ (l : List Nat) (a y : Nat),
    (y ∈ dedupConsecAux a l ∨ y = a) ↔ (y ∈ l ∨ y = a) := by
  intro l
  induction l with
  | nil => intro a y; simp [dedupConsecAux]
  | cons b rest ih =>
    intro a y
    by_cases h : a = b
    · subst h
      rw [dedupConsecAux, if_pos rfl]
      have h2 := ih a y
      simp only [List.mem_cons]
      tauto
    · rw [dedupConsecAux, if_neg h]
      have h2 := ih b y
      simp only [List.mem_cons] at h2 ⊢
      tauto

lemma mem_dedupConsec {l : List Nat} {y : Nat} :
    y ∈ dedupConsec l ↔ y ∈ l := by
  cases l with
  | nil => simp [dedupConsec]
  | cons x rest =>
    rw [dedupConsec]
    have h2 := mem_dedupConsecAux rest x y
    simp only [List.mem_cons] at h2 ⊢
    tauto

lemma chain_ne_dedupConsecAux : ∀ (l : List Nat) (a : Nat),
    (a :: dedupConsecAux a l).Chain' (fun x y => x ≠ y) := by
  intro l
  induction l with
  | nil => intro a; simp [dedupConsecAux]
  | cons b rest ih =>
    intro a
    by_cases h : a = b
    · subst h
      rw [dedupConsecAux, if_pos rfl]
      exact ih a
    · rw [dedupConsecAux, if_neg h]
      exact List.chain'_cons.mpr ⟨h, ih b⟩

lemma dedupConsecAux_eq_of_chain : ∀ (l : List Nat) (a : Nat),
    (a :: l).Chain' (fun x y => x ≠ y) → dedupConsecAux a l = l := by
  intro l
  induction l with
  | nil => intro a _; rfl
  | cons b rest ih =>
    intro a hc
    rcases List.chain'_cons.mp hc with ⟨hab, hc2⟩
    rw [dedupConsecAux, if_neg hab, ih b hc2]

lemma dedupConsec_eq_of_chain {l : List Nat}
    (h : l.Chain' (fun x y => x ≠ y)) : dedupConsec l = l := by
  cases l with
  | nil => rfl
  | cons x rest =>
    rw [dedupConsec, dedupConsecAux_eq_of_chain rest x h]

lemma pairwise_gt_dedupConsecAux : ∀ (l : List Nat) (a : Nat),
    (a :: l).Pairwise (fun x y => x ≥ y) →
    (a :: dedupConsecAux a l).Pairwise (fun x y => x > y) := by
  intro l
  induction l with
  | nil => intro a _; simp [dedupConsecAux]
  | cons b rest ih =>
    intro a hp
    rcases List.pairwise_cons.mp hp with ⟨ha, hrest⟩
    by_cases h : a = b
    · subst h
      rw [dedupConsecAux, if_pos rfl]
      refine ih a (List.pairwise_cons.mpr
        ⟨fun c hc => ha c (List.mem_cons_of_mem _ hc),
          (List.pairwise_cons.mp hrest).2⟩)
    · rw [dedupConsecAux, if_neg h]
      have hb := ih b hrest
      have hab : a > b :=
        lt_of_le_of_ne (ha b (List.mem_cons_self b rest)) (Ne.symm h)
      refine List.pairwise_cons.mpr ⟨?_, hb⟩
      intro c hc
      rcases List.mem_cons.mp hc with rfl | hc2
      · exact hab
      · have hcr : c ∈ rest ∨ c = b := by
          have h3 := (mem_dedupConsecAux rest b c).mp (Or.inl hc2)
          tauto
        rcases hcr with hcr | rfl
        · exact lt_of_le_of_lt ((List.pairwise_cons.mp hrest).1 c hcr) hab
        · exact hab

lemma dedupConsec_pairwise_gt {l : List Nat}
    (h : l.Pairwise (fun a b => a ≥ b)) :
    (dedupConsec l).Pairwise (fun a b => a > b) := by
  cases l with
  | nil => simp [dedupConsec]
  | cons x rest =>
    rw [dedupConsec]
    exact pairwise_gt_dedupConsecAux rest x h

lemma collectRemovals_pairwise_gt (l : List Nat) :
    (collectRemovals l).Pairwise (fun a b => a > b) :=
  dedupConsec_pairwise_gt (sortDesc_sorted l)

lemma mem_collectRemovals {x : Nat} {l : List Nat} :
    x ∈ collectRemovals l ↔ x ∈ l := by
  rw [collectRemovals, mem_dedupConsec, mem_sortDesc]

lemma collectRemovals_length_of_nodup {l : List Nat} (h : l.Nodup) :
    (collectRemovals l).length = l.length := by
  have hnd : (sortDesc l).Nodup := (sortDesc_perm l).nodup_iff.mpr h
  have hch : (sortDesc l).Chain' (fun a b => a ≠ b) := hnd.chain'
  rw [collectRemovals, dedupConsec_eq_of_chain hch]
  exact (sortDesc_perm l).length_eq

/-- Two strictly descending lists with the same members are equal. -/
lemma eq_of_pairwise_gt_of_mem_iff : ∀ {l₁ l₂ : List Nat},
    l₁.Pairwise (fun a b => a > b) → l₂.Pairwise (fun a b => a > b) →
    (∀ x, x ∈ l₁ ↔ x ∈ l₂) → l₁ = l₂
  | [], [], _, _, _ => rfl
  | [], b :: l₂, _, _, hm => by
    exact absurd ((hm b).mpr (List.mem_cons_self b l₂)) (List.not_mem_nil b)
  | a :: l₁, [], _, _, hm => by
    exact absurd ((hm a).mp (List.mem_cons_self a l₁)) (List.not_mem_nil a)
  | a :: l₁, b :: l₂, h₁, h₂, hm => by
    rcases List.pairwise_cons.mp h₁ with ⟨ha, h₁'⟩
    rcases List.pairwise_cons.mp h₂ with ⟨hb, h₂'⟩
    have hab : a = b := by
      rcases List.mem_cons.mp ((hm a).mp (List.mem_cons_self a l₁)) with h | h
      · exact h
      · rcases List.mem_cons.mp ((hm b).mpr (List.mem_cons_self b l₂)) with
          h' | h'
        · exact h'.symm
        · exact absurd (lt_trans (hb a h) (ha b h')) (lt_irrefl a)
    subst hab
    have hm' : ∀ x, x ∈ l₁ ↔ x ∈ l₂ := by
      intro x
      constructor
      · intro hx
        rcases List.mem_cons.mp ((hm x).mp (List.mem_cons_of_mem a hx)) with
          h | h
        · exact absurd (h ▸ ha x hx) (lt_irrefl x)
        · exact h
      · intro hx
        rcases List.mem_cons.mp ((hm x).mpr (List.mem_cons_of_mem a hx)) with
          h | h
        · exact absurd (h ▸ hb x hx) (lt_irrefl x)
        · exact h
    rw [eq_of_pairwise_gt_of_mem_iff h₁' h₂' hm']

/-- The queued removal indices determine the processed removal
sequence only through their set: multiplicity is irrelevant. -/
lemma collectRemovals_eq_of_mem_iff {l₁ l₂ : List Nat}
    (h : ∀ x, x ∈ l₁ ↔ x ∈ l₂) :
    collectRemovals l₁ = collectRemovals l₂ :=
  eq_of_pairwise_gt_of_mem_iff (collectRemovals_pairwise_gt l₁)
    (collectRemovals_pairwise_gt l₂)
    (fun x => by rw [mem_collectRemovals, mem_collectRemovals, h x])

/-! ### The removal loop: lengths -/

lemma removeOne_out_of_range {st : List (EntityWrapper E) × (Nat → EntityIndex)}
    {i : Nat} (h : st.1.length ≤ i) : removeOne st i = st := by
  unfold removeOne
  dsimp only
  rw [List.getElem?_eq_none h]

lemma removeOne_eq_pop {buf : List (EntityWrapper E)}
    {cells : Nat → EntityIndex} {i : Nat} {w : EntityWrapper E}
    (hg : buf[i]? = some w) (hl : i = buf.length - 1) :
    removeOne (buf, cells) i =
      (buf.dropLast, updateCell cells w.cellId EntityIndex.freed) := by
  unfold removeOne
  dsimp only
  rw [hg]
  dsimp only
  rw [if_pos hl]

lemma removeOne_eq_swap {buf : List (EntityWrapper E)}
    {cells : Nat → EntityIndex} {i : Nat} {w lw m : EntityWrapper E}
    (hg : buf[i]? = some w) (hl : ¬ i = buf.length - 1)
    (hlast : buf.getLast? = some lw)
    (hm : ((buf.set i lw).dropLast)[i]? = some m) :
    removeOne (buf, cells) i =
      ((buf.set i lw).dropLast,
        updateCell
          (updateCell (updateCell cells w.cellId EntityIndex.freed)
            lw.cellId EntityIndex.moving)
          m.cellId (cells w.cellId)) := by
  unfold removeOne
  dsimp only
  rw [hg]
  dsimp only
  rw [if_neg hl, hlast]
  dsimp only
  rw [hm]

lemma removeOne_length {st : List (EntityWrapper E) × (Nat → EntityIndex)}
    {i : Nat} (h : i < st.1.length) :
    (removeOne st i).1.length = st.1.length - 1 := by
  obtain ⟨buf, cells⟩ := st
  simp only at h ⊢
  have hg : buf[i]? = some (buf.get ⟨i, h⟩) := List.getElem?_eq_getElem h
  by_cases hl : i = buf.length - 1
  · rw [removeOne_eq_pop hg hl]
    simp
  · have hpos : 0 < buf.length := by omega
    have hne : buf ≠ [] := List.ne_nil_of_length_pos hpos
    have hlast : buf.getLast? = some (buf.getLast hne) :=
      List.getLast?_eq_getLast buf hne
    have hm := List.getElem?_eq_getElem
      (l := (buf.set i (buf.getLast hne)).dropLast) (n := i)
      (by simp only [List.length_dropLast, List.length_set]; omega)
    rw [removeOne_eq_swap hg hl hlast hm]
    simp

lemma removeAll_length : ∀ (l : List Nat)
    (st : List (EntityWrapper E) × (Nat → EntityIndex)),
    l.Pairwise (fun a b => a > b) → (∀ x ∈ l, x < st.1.length) →
    (removeAll l st).1.length = st.1.length - l.length
  | [], st, _, _ => rfl
  | i :: rest, st, hp, hin => by
    rcases List.pairwise_cons.mp hp with ⟨hi, hrest⟩
    have hlen : i < st.1.length := hin i (List.mem_cons_self i rest)
    have hstep := removeOne_length hlen
    have hrec := removeAll_length rest (removeOne st i) hrest (by
      intro x hx
      rw [hstep]
      have hxi : x < i := hi x hx
      omega)
    rw [removeAll, hrec, hstep]
    simp only [List.length_cons]
    omega

lemma appendAdds_length : ∀ (adds : List E)
    (buf : List (EntityWrapper E)) (cells : Nat → EntityIndex) (nc : Nat),
    (appendAdds adds buf cells nc).1.length = buf.length + adds.length
  | [], _, _, _ => rfl
  | e :: rest, buf, cells, nc => by
    rw [appendAdds, appendAdds_length rest]
    simp
    omega

/-- C5: for distinct, in-range removal indices and any list of queued
adds, the buffer length after flush is the previous length plus the
adds minus the removes. -/
theorem C5_add_remove_conservation (ef : E → E) (b : EntityBufferStruct E)
    (hnd : b.pending_removes.Nodup)
    (hin : ∀ i ∈ b.pending_removes, i < b.buffer.length) :
    (b.flush ef).buffer.length =
      b.buffer.length + b.pending_adds.length - b.pending_removes.length := by
  have hin2 : ∀ x ∈ collectRemovals b.pending_removes,
      x < (b.buffer.map fun w => { w with entity := ef w.entity }).length := by
    intro x hx
    rw [List.length_map]
    exact hin x (mem_collectRemovals.mp hx)
  have hrem := removeAll_length (collectRemovals b.pending_removes)
    (b.buffer.map fun w => { w with entity := ef w.entity }, b.cells)
    (collectRemovals_pairwise_gt _) hin2
  have hle : b.pending_removes.length ≤ b.buffer.length := by
    have hsub : b.pending_removes.toFinset ⊆ Finset.range b.buffer.length := by
      intro x hx
      rw [List.mem_toFinset] at hx
      exact Finset.mem_range.mpr (hin x hx)
    have hcard := Finset.card_le_card hsub
    rwa [List.toFinset_card_of_nodup hnd, Finset.card_range] at hcard
  simp only [EntityBufferStruct.flush]
  rw [appendAdds_length, hrem, List.length_map,
    collectRemovals_length_of_nodup hnd]
  omega

/-- C5 witness scaffold: a concrete three-element buffer with cells
`Alive 0/1/2`, used below for the swap-remove scenario as well. -/
def threeBuf (e0 e1 e2 : E) : EntityBufferStruct E :=
  { buffer := [{ entity := e0, cellId := 0 }, { entity := e1, cellId := 1 },
      { entity := e2, cellId := 2 }],
    pending_adds := [], pending_removes := [],
    cells := fun c => if c < 3 then EntityIndex.alive c else EntityIndex.freed,
    nextCell := 3 }

theorem C5_add_remove_conservation_witness :
    ([0, 2].Nodup ∧ ∀ i ∈ [0, 2], i < (threeBuf 10 11 12 : EntityBufferStruct Nat).buffer.length) ∧
    ((((threeBuf 10 11 12 : EntityBufferStruct Nat).queue_remove_entity 0).queue_remove_entity 2).flush id).buffer.length =
      3 + 0 - 2 :=
  ⟨⟨by decide, by decide⟩, by
    have h := C5_add_remove_conservation (E := Nat) id
      (((threeBuf 10 11 12).queue_remove_entity 0).queue_remove_entity 2)
      (by decide) (by decide)
    simpa using h⟩

/-- C6: removing indices 0 and 2 from a three-entity buffer in one
tick (in either queueing order) leaves exactly the former middle
entity, now at position 0, with its shared index cell reading
`Alive(0)`; and the removal loop always processes indices in strictly
descending order. -/
theorem C6_swap_remove_index_stability (ef : E → E) (e0 e1 e2 : E) :
    ((((threeBuf e0 e1 e2).queue_remove_entity 0).queue_remove_entity 2).flush ef
      = (((threeBuf e0 e1 e2).queue_remove_entity 2).queue_remove_entity 0).flush ef) ∧
    ((((threeBuf e0 e1 e2).queue_remove_entity 0).queue_remove_entity 2).flush ef).buffer
      = [{ entity := ef e1, cellId := 1 }] ∧
    ((((threeBuf e0 e1 e2).queue_remove_entity 0).queue_remove_entity 2).flush ef).cells 1
      = EntityIndex.alive 0 ∧
    ∀ l : List Nat, (collectRemovals l).Pairwise (fun a b => a > b) := by
  refine ⟨?_, rfl, rfl, collectRemovals_pairwise_gt⟩
  rfl

/-- C7: queueing the same index for removal twice in one tick flushes
to exactly the same buffer state as queueing it once (out-of-range
indices are dropped at queue time; in-range duplicates are skipped by
the removal loop's dedup). -/
theorem C7_idempotent_removal (ef : E → E) (b : EntityBufferStruct E)
    (i : Nat) :
    ((b.queue_remove_entity i).queue_remove_entity i).flush ef
      = (b.queue_remove_entity i).flush ef := by
  by_cases h : b.buffer.length ≤ i
  · have hq : b.queue_remove_entity i = b := by
      rw [EntityBufferStruct.queue_remove_entity, if_pos h]
    simp only [hq]
  · have h1 : b.queue_remove_entity i =
        { b with pending_removes := b.pending_removes ++ [i] } := by
      rw [EntityBufferStruct.queue_remove_entity, if_neg h]
    have h2 : (b.queue_remove_entity i).queue_remove_entity i =
        { b with pending_removes := (b.pending_removes ++ [i]) ++ [i] } := by
      rw [h1, EntityBufferStruct.queue_remove_entity, if_neg h]
    rw [h2, h1]
    simp only [EntityBufferStruct.flush]
    have hmm : ∀ x, x ∈ (b.pending_removes ++ [i]) ++ [i]
        ↔ x ∈ b.pending_removes ++ [i] := by
      intro x
      simp only [List.mem_append, List.mem_singleton]
      tauto
    rw [collectRemovals_eq_of_mem_iff hmm]

/-! ### The index-cell invariant (§4.3 of the spec) -/

/-- The shared index cell of the entity stored at position `i` reads
`Alive(i)`. -/
def cellsAligned (buf : List (EntityWrapper E))
    (cells : Nat → EntityIndex) : Prop :=
  ∀ (i : Nat) (h : i < buf.length),
    cells (buf.get ⟨i, h⟩).cellId = EntityIndex.alive i

/-- Distinct positions hold distinct cells (each wrapper owns its own
`Arc<AtomicCell<_>>`). -/
def cidInjective (buf : List (EntityWrapper E)) : Prop :=
  ∀ (i : Nat) (hi : i < buf.length) (j : Nat) (hj : j < buf.length),
    (buf.get ⟨i, hi⟩).cellId = (buf.get ⟨j, hj⟩).cellId → i = j

lemma cellsAligned_getElem {buf : List (EntityWrapper E)}
    {cells : Nat → EntityIndex} (ha : cellsAligned buf cells)
    (i : Nat) (h : i < buf.length) :
    cells (buf[i].cellId) = EntityIndex.alive i := ha i h

lemma cidInjective_getElem {buf : List (EntityWrapper E)}
    (hinj : cidInjective buf) (i j : Nat)
    (hi : i < buf.length) (hj : j < buf.length)
    (h : buf[i].cellId = buf[j].cellId) : i = j := hinj i hi j hj h

lemma removeOne_step {buf : List (EntityWrapper E)}
    {cells : Nat → EntityIndex} {i : Nat} (h : i < buf.length)
    (ha : cellsAligned buf cells) (hinj : cidInjective buf) :
    cellsAligned (removeOne (buf, cells) i).1 (removeOne (buf, cells) i).2 ∧
    cidInjective (removeOne (buf, cells) i).1 ∧
    (∀ w ∈ (removeOne (buf, cells) i).1, w ∈ buf) ∧
    (∀ c, cells c = EntityIndex.freed →
      (removeOne (buf, cells) i).2 c = EntityIndex.freed) ∧
    ((∀ c, cells c ≠ EntityIndex.moving) →
      ∀ c, (removeOne (buf, cells) i).2 c ≠ EntityIndex.moving) := by
  have hg : buf[i]? = some (buf[i]) := List.getElem?_eq_getElem h
  by_cases hl : i = buf.length - 1
  · rw [removeOne_eq_pop hg hl]
    dsimp only
    refine ⟨?_, ?_, ?_, ?_, ?_⟩
    · intro j hj
      have hj3 : j < buf.length - 1 := by
        simpa only [List.length_dropLast] using hj
      have hj2 : j < buf.length := by omega
      show updateCell cells (buf[i].cellId) EntityIndex.freed
        ((buf.dropLast[j]).cellId) = EntityIndex.alive j
      rw [List.getElem_dropLast]
      simp only [updateCell]
      rw [if_neg (fun heq =>
        absurd (cidInjective_getElem hinj j i hj2 h heq) (by omega))]
      exact cellsAligned_getElem ha j hj2
    · intro j hj k hk heq
      have hj2 : j < buf.length := by
        have := hj; simp only [List.length_dropLast] at this; omega
      have hk2 : k < buf.length := by
        have := hk; simp only [List.length_dropLast] at this; omega
      simp only [List.get_eq_getElem, List.getElem_dropLast] at heq
      exact cidInjective_getElem hinj j k hj2 hk2 heq
    · intro w hw
      exact (List.dropLast_sublist buf).subset hw
    · intro c hc
      simp only [updateCell]
      by_cases hcc : c = buf[i].cellId
      · rw [if_pos hcc]
      · rw [if_neg hcc]; exact hc
    · intro hmv c
      simp only [updateCell]
      by_cases hcc : c = buf[i].cellId
      · rw [if_pos hcc]; intro hcon; cases hcon
      · rw [if_neg hcc]; exact hmv c
  · have hi2 : i < buf.length - 1 := by omega
    have hpos : 0 < buf.length := by omega
    have hne : buf ≠ [] := List.ne_nil_of_length_pos hpos
    have hlen1 : buf.length - 1 < buf.length := by omega
    have hlast : buf.getLast? = some (buf[buf.length - 1]) := by
      rw [List.getLast?_eq_getLast buf hne, List.getLast_eq_getElem]
    have hm0 := List.getElem?_eq_getElem
      (l := (buf.set i (buf[buf.length - 1])).dropLast) (n := i)
      (by simp only [List.length_dropLast, List.length_set]; omega)
    have hm : ((buf.set i (buf[buf.length - 1])).dropLast)[i]?
        = some (buf[buf.length - 1]) := by
      rw [hm0]
      simp only [List.getElem_dropLast, List.getElem_set_self]
    rw [removeOne_eq_swap hg hl hlast hm]
    dsimp only
    have holdv : cells (buf[i].cellId) = EntityIndex.alive i :=
      cellsAligned_getElem ha i h
    have hlastv : cells (buf[buf.length - 1].cellId)
        = EntityIndex.alive (buf.length - 1) :=
      cellsAligned_getElem ha (buf.length - 1) hlen1
    have hcidne : buf[i].cellId ≠ buf[buf.length - 1].cellId :=
      fun heq => absurd (cidInjective_getElem hinj i (buf.length - 1)
        h hlen1 heq) (by omega)
    have hc3 : ∀ c,
        updateCell
          (updateCell (updateCell cells (buf[i].cellId) EntityIndex.freed)
            (buf[buf.length - 1].cellId) EntityIndex.moving)
          (buf[buf.length - 1].cellId) (cells (buf[i].cellId)) c
        = if c = buf[buf.length - 1].cellId then EntityIndex.alive i
          else if c = buf[i].cellId then EntityIndex.freed
          else cells c := by
      intro c
      simp only [updateCell, holdv]
      by_cases h1 : c = buf[buf.length - 1].cellId
      · simp [h1]
      · simp [h1]
    refine ⟨?_, ?_, ?_, ?_, ?_⟩
    · intro j hj
      have hj3 : j < buf.length - 1 := by
        simpa only [List.length_dropLast, List.length_set] using hj
      have hj2 : j < buf.length := by omega
      show updateCell _ _ _ (((buf.set i (buf[buf.length - 1])).dropLast.get
        ⟨j, hj⟩).cellId) = EntityIndex.alive j
      rw [hc3]
      simp only [List.get_eq_getElem, List.getElem_dropLast, List.getElem_set]
      by_cases hji : i = j
      · subst hji
        simp
      · rw [if_neg hji]
        rw [if_neg (fun heq =>
          absurd (cidInjective_getElem hinj j (buf.length - 1) hj2 hlen1 heq)
            (by omega))]
        rw [if_neg (fun heq =>
          absurd (cidInjective_getElem hinj j i hj2 h heq)
            (fun hji2 => hji hji2.symm))]
        exact cellsAligned_getElem ha j hj2
    · intro j hj k hk heq
      have hj3 : j < buf.length - 1 := by
        have := hj
        simp only [List.length_dropLast, List.length_set] at this; omega
      have hk3 : k < buf.length - 1 := by
        have := hk
        simp only [List.length_dropLast, List.length_set] at this; omega
      have hj2 : j < buf.length := by omega
      have hk2 : k < buf.length := by omega
      simp only [List.get_eq_getElem, List.getElem_dropLast,
        List.getElem_set] at heq
      by_cases hij : i = j
      · by_cases hik : i = k
        · omega
        · rw [if_pos hij, if_neg hik] at heq
          exact absurd (cidInjective_getElem hinj (buf.length - 1) k
            hlen1 hk2 heq) (by omega)
      · by_cases hik : i = k
        · rw [if_neg hij, if_pos hik] at heq
          exact absurd (cidInjective_getElem hinj j (buf.length - 1)
            hj2 hlen1 heq) (by omega)
        · rw [if_neg hij, if_neg hik] at heq
          exact cidInjective_getElem hinj j k hj2 hk2 heq
    · intro w hw
      have hw2 : w ∈ buf.set i (buf[buf.length - 1]) :=
        (List.dropLast_sublist _).subset hw
      rcases List.mem_or_eq_of_mem_set hw2 with hwb | rfl
      · exact hwb
      · exact List.getElem_mem hlen1
    · intro c hc
      rw [hc3]
      rw [if_neg (fun heq => by rw [heq, hlastv] at hc; cases hc)]
      by_cases hcc : c = buf[i].cellId
      · rw [if_pos hcc]
      · rw [if_neg hcc]; exact hc
    · intro hmv c
      rw [hc3]
      by_cases h1 : c = buf[buf.length - 1].cellId
      · rw [if_pos h1]; intro hcon; cases hcon
      · rw [if_neg h1]
        by_cases h2 : c = buf[i].cellId
        · rw [if_pos h2]; intro hcon; cases hcon
        · rw [if_neg h2]; exact hmv c

lemma removeAll_invariants : ∀ (l : List Nat) (buf : List (EntityWrapper E))
    (cells : Nat → EntityIndex),
    l.Pairwise (fun a b => a > b) → (∀ x ∈ l, x < buf.length) →
    cellsAligned buf cells → cidInjective buf →
    cellsAligned (removeAll l (buf, cells)).1 (removeAll l (buf, cells)).2 ∧
    cidInjective (removeAll l (buf, cells)).1 ∧
    (∀ w ∈ (removeAll l (buf, cells)).1, w ∈ buf) ∧
    (∀ c, cells c = EntityIndex.freed →
      (removeAll l (buf, cells)).2 c = EntityIndex.freed) ∧
    ((∀ c, cells c ≠ EntityIndex.moving) →
      ∀ c, (removeAll l (buf, cells)).2 c ≠ EntityIndex.moving)
  | [], buf, cells, _, _, ha, hinj =>
    ⟨ha, hinj, fun _ hw => hw, fun _ hc => hc, fun hm => hm⟩
  | i :: rest, buf, cells, hp, hin, ha, hinj => by
    rcases List.pairwise_cons.mp hp with ⟨hi, hrest⟩
    have h : i < buf.length := hin i (List.mem_cons_self i rest)
    obtain ⟨ha1, hinj1, hmem1, hfr1, hmv1⟩ := removeOne_step h ha hinj
    have hlen1 : (removeOne (buf, cells) i).1.length = buf.length - 1 :=
      removeOne_length h
    rcases hmk : removeOne (buf, cells) i with ⟨buf1, cells1⟩
    rw [hmk] at ha1 hinj1 hmem1 hfr1 hmv1 hlen1
    have hin1 : ∀ x ∈ rest, x < buf1.length := by
      intro x hx
      have hxi : x < i := hi x hx
      simp only at hlen1
      omega
    obtain ⟨ha2, hinj2, hmem2, hfr2, hmv2⟩ :=
      removeAll_invariants rest buf1 cells1 hrest hin1 ha1 hinj1
    rw [removeAll, hmk]
    exact ⟨ha2, hinj2, fun w hw => hmem1 w (hmem2 w hw),
      fun c hc => hfr2 c (hfr1 c hc),
      fun hm c => hmv2 (hmv1 hm) c⟩

lemma appendAdds_invariants : ∀ (adds : List E)
    (buf : List (EntityWrapper E)) (cells : Nat → EntityIndex) (nc : Nat),
    cellsAligned buf cells → cidInjective buf →
    (∀ w ∈ buf, w.cellId < nc) →
    cellsAligned (appendAdds adds buf cells nc).1
      (appendAdds adds buf cells nc).2.1 ∧
    cidInjective (appendAdds adds buf cells nc).1 ∧
    (∀ w ∈ (appendAdds adds buf cells nc).1,
      w.cellId < (appendAdds adds buf cells nc).2.2) ∧
    (∀ c, c < nc → (appendAdds adds buf cells nc).2.1 c = cells c) ∧
    (∀ c, (appendAdds adds buf cells nc).2.1 c = cells c ∨
      ∃ j, (appendAdds adds buf cells nc).2.1 c = EntityIndex.alive j)
  | [], buf, cells, nc, ha, hinj, hb =>
    ⟨ha, hinj, hb, fun _ _ => rfl, fun _ => Or.inl rfl⟩
  | e :: rest, buf, cells, nc, ha, hinj, hb => by
    rw [appendAdds]
    have hb2 : ∀ w ∈ buf ++ [{ entity := e, cellId := nc }],
        w.cellId < nc + 1 := by
      intro w hw
      rcases List.mem_append.mp hw with hw | hw
      · exact Nat.lt_succ_of_lt (hb w hw)
      · rcases List.mem_singleton.mp hw with rfl
        exact Nat.lt_succ_self nc
    have ha2 : cellsAligned (buf ++ [{ entity := e, cellId := nc }])
        (updateCell cells nc (EntityIndex.alive buf.length)) := by
      intro j hj
      have hj2 : j < buf.length + 1 := by
        simpa [List.length_append] using hj
      by_cases hjb : j < buf.length
      · show updateCell cells nc (EntityIndex.alive buf.length)
          (((buf ++ [{ entity := e, cellId := nc }])[j]).cellId)
          = EntityIndex.alive j
        rw [List.getElem_append_left hjb]
        simp only [updateCell]
        have h1 := hb (buf[j]) (List.getElem_mem hjb)
        rw [if_neg (by omega)]
        exact cellsAligned_getElem ha j hjb
      · have hjl : j = buf.length := by omega
        show updateCell cells nc (EntityIndex.alive buf.length)
          (((buf ++ [{ entity := e, cellId := nc }])[j]).cellId)
          = EntityIndex.alive j
        rw [List.getElem_concat_length buf _ j hjl]
        subst hjl
        simp [updateCell]
    have hinj2 : cidInjective (buf ++ [{ entity := e, cellId := nc }]) := by
      intro j hj k hk heq
      have hj2 : j < buf.length + 1 := by
        have := hj; simp [List.length_append] at this; omega
      have hk2 : k < buf.length + 1 := by
        have := hk; simp [List.length_append] at this; omega
      simp only [List.get_eq_getElem] at heq
      by_cases hjb : j < buf.length
      · by_cases hkb : k < buf.length
        · rw [List.getElem_append_left hjb,
            List.getElem_append_left hkb] at heq
          exact cidInjective_getElem hinj j k hjb hkb heq
        · have hkl : k = buf.length := by omega
          rw [List.getElem_append_left hjb,
            List.getElem_concat_length buf _ k hkl] at heq
          have heq2 : buf[j].cellId = nc := heq
          have h1 := hb (buf[j]) (List.getElem_mem hjb)
          omega
      · have hjl : j = buf.length := by omega
        by_cases hkb : k < buf.length
        · rw [List.getElem_concat_length buf _ j hjl,
            List.getElem_append_left hkb] at heq
          have heq2 : nc = buf[k].cellId := heq
          have h1 := hb (buf[k]) (List.getElem_mem hkb)
          omega
        · omega
    obtain ⟨ga, ginj, gb, gpres, gor⟩ := appendAdds_invariants rest
      (buf ++ [{ entity := e, cellId := nc }])
      (updateCell cells nc (EntityIndex.alive buf.length)) (nc + 1)
      ha2 hinj2 hb2
    refine ⟨ga, ginj, gb, ?_, ?_⟩
    · intro c hc
      rw [gpres c (by omega)]
      simp only [updateCell]
      rw [if_neg (by omega)]
    · intro c
      rcases gor c with hc | hc
      · rw [hc]
        simp only [updateCell]
        by_cases hcc : c = nc
        · exact Or.inr ⟨buf.length, by rw [if_pos hcc]⟩
        · rw [if_neg hcc]; exact Or.inl rfl
      · exact Or.inr hc

/-- The reachable-state invariant of an entity buffer: every live
position's cell reads `Alive` of that position, positions own distinct
cells, every owned cell id has been allocated, and queued removal
indices are in range (guaranteed at queue time). -/
def GoodBuffer (b : EntityBufferStruct E) : Prop :=
  cellsAligned b.buffer b.cells ∧ cidInjective b.buffer ∧
  (∀ w ∈ b.buffer, w.cellId < b.nextCell) ∧
  (∀ i ∈ b.pending_removes, i < b.buffer.length)

lemma mapEf_cellsAligned {buf : List (EntityWrapper E)}
    {cells : Nat → EntityIndex} (ef : E → E)
    (ha : cellsAligned buf cells) :
    cellsAligned (buf.map fun w => { w with entity := ef w.entity }) cells := by
  intro j hj
  have hj2 : j < buf.length := by simpa using hj
  simp only [List.get_eq_getElem, List.getElem_map]
  exact cellsAligned_getElem ha j hj2

lemma mapEf_cidInjective {buf : List (EntityWrapper E)} (ef : E → E)
    (hinj : cidInjective buf) :
    cidInjective (buf.map fun w => { w with entity := ef w.entity }) := by
  intro j hj k hk heq
  have hj2 : j < buf.length := by
    have := hj; simp at this; omega
  have hk2 : k < buf.length := by
    have := hk; simp at this; omega
  simp only [List.get_eq_getElem, List.getElem_map] at heq
  exact cidInjective_getElem hinj j k hj2 hk2 heq

/-- C9: flushing a buffer that satisfies the index-cell invariant
yields a buffer that satisfies it again — the cell of the entity at
position `i` reads `Alive(i)` for every position, including freshly
appended entities; a cell already reading `Freed` is never written
again by the flush; and if no cell read `Moving` before the flush,
none reads `Moving` once it has returned (the transient `Moving` mark
on the swapped-in last element is always overwritten before the loop
moves on). -/
theorem C9_index_cell_invariant (ef : E → E) (b : EntityBufferStruct E)
    (hb : GoodBuffer b) :
    GoodBuffer (b.flush ef) ∧
    (∀ c, c < b.nextCell → b.cells c = EntityIndex.freed →
      (b.flush ef).cells c = EntityIndex.freed) ∧
    ((∀ c, b.cells c ≠ EntityIndex.moving) →
      ∀ c, (b.flush ef).cells c ≠ EntityIndex.moving) := by
  obtain ⟨ha, hinj, hbound, hrng⟩ := hb
  have hin : ∀ x ∈ collectRemovals b.pending_removes,
      x < (b.buffer.map fun w => { w with entity := ef w.entity }).length := by
    intro x hx
    rw [List.length_map]
    exact hrng x (mem_collectRemovals.mp hx)
  obtain ⟨ra, rinj, rmem, rfr, rmv⟩ := removeAll_invariants
    (collectRemovals b.pending_removes)
    (b.buffer.map fun w => { w with entity := ef w.entity }) b.cells
    (collectRemovals_pairwise_gt _) hin
    (mapEf_cellsAligned ef ha) (mapEf_cidInjective ef hinj)
  have rbound : ∀ w ∈ (removeAll (collectRemovals b.pending_removes)
      (b.buffer.map fun w => { w with entity := ef w.entity }, b.cells)).1,
      w.cellId < b.nextCell := by
    intro w hw
    have hw2 := rmem w hw
    rcases List.mem_map.mp hw2 with ⟨w0, hw0, rfl⟩
    exact hbound w0 hw0
  obtain ⟨ga, ginj, gb, gpres, gor⟩ := appendAdds_invariants
    b.pending_adds
    (removeAll (collectRemovals b.pending_removes)
      (b.buffer.map fun w => { w with entity := ef w.entity }, b.cells)).1
    (removeAll (collectRemovals b.pending_removes)
      (b.buffer.map fun w => { w with entity := ef w.entity }, b.cells)).2
    b.nextCell ra rinj rbound
  have hcells : (b.flush ef).cells = (appendAdds b.pending_adds
      (removeAll (collectRemovals b.pending_removes)
        (b.buffer.map fun w => { w with entity := ef w.entity }, b.cells)).1
      (removeAll (collectRemovals b.pending_removes)
        (b.buffer.map fun w => { w with entity := ef w.entity }, b.cells)).2
      b.nextCell).2.1 := rfl
  refine ⟨⟨ga, ginj, gb, by intro i hi; cases hi⟩, ?_, ?_⟩
  · intro c hc hfr
    have h1 := rfr c hfr
    rw [hcells, gpres c hc]
    exact h1
  · intro hmv c
    rw [hcells]
    rcases gor c with hc | ⟨j, hc⟩
    · rw [hc]
      exact rmv hmv c
    · rw [hc]
      intro hcon
      cases hcon

/-! ## Scheduler (`universe.rs`)

`Universe` owns a type-keyed map of entity buffers plus a mutex-guarded
map of pending new buffers, the same pair for singletons, an exit cell
(`AtomicCell<Option<Result<..>>>`) and the delta fields.  `TypeId` keys
are modelled as `Nat`; the boxed error of `exit_err` is abstracted as a
code; durations and the `f32`/`f64` delta fields are modelled as `ℚ`
(the fixed-delta path only copies the fabricated duration around, so no
floating-point rounding is involved in the claims below).  User code
running during the process phase interacts with the universe only
through the queue/exit calls; a tick's combined user-code effect is
modelled as a `Script`, a list of those calls. -/

inductive ExitResult where
  | ok : ExitResult
  | err : Nat → ExitResult
  deriving Repr, DecidableEq

/-- Association-list model of `FxHashMap<TypeId, _>`. -/
def findKey {B : Type} (k : Nat) : List (Nat × B) → Option B
  | [] => none
  | (k2, b) :: rest => if k2 = k then some b else findKey k rest

def modifyKey {B : Type} (k : Nat) (f : B → B) :
    List (Nat × B) → List (Nat × B)
  | [] => []
  | (k2, b) :: rest =>
    if k2 = k then (k2, f b) :: rest else (k2, b) :: modifyKey k f rest

/-- Model of `HashMap::insert` semantics: overwrite an existing key, else append. -/
def upsertKey {B : Type} (k : Nat) (v : B) (l : List (Nat × B)) :
    List (Nat × B) :=
  if (findKey k l).isSome then modifyKey k (fun _ => v) l else l ++ [(k, v)]

/-- Model of `HashMap::extend(drain())`: insert every pending entry. -/
def extendMap {B : Type} (live pending : List (Nat × B)) : List (Nat × B) :=
  pending.foldl (fun acc kv => upsertKey kv.1 kv.2 acc) live

structure Universe (E S : Type) where
  entity_buffers : List (Nat × EntityBufferStruct E)
  pending_new_entity_buffers : List (Nat × EntityBufferStruct E)
  singletons : List (Nat × S)
  pending_new_singletons : List (Nat × S)
  exit_result : Option ExitResult
  delta : ℚ
  delta_accurate : ℚ

/-- Model of `Universe::new`. -/
def Universe.new (E S : Type) : Universe E S :=
  { entity_buffers := [], pending_new_entity_buffers := [],
    singletons := [], pending_new_singletons := [],
    exit_result := none, delta := 0, delta_accurate := 0 }

/-- Model of `Universe::queue_add_entity`: use the live buffer for the shape if
one exists; otherwise find or lazily create one in the mutex-guarded
pending map. -/
def Universe.queue_add_entity (u : Universe E S) (k : Nat) (e : E) :
    Universe E S :=
  match findKey k u.entity_buffers with
  | some _ =>
    { u with entity_buffers :=
        modifyKey k (fun b => b.queue_add_entity e) u.entity_buffers }
  | none =>
    match findKey k u.pending_new_entity_buffers with
    | some _ =>
      { u with pending_new_entity_buffers :=
          (modifyKey k (fun b => b.queue_add_entity e)
            u.pending_new_entity_buffers) }
    | none =>
      { u with pending_new_entity_buffers :=
          u.pending_new_entity_buffers
            ++ [(k, (EntityBufferStruct.new E).queue_add_entity e)] }

/-- Model of `Universe::queue_remove_entity`: `map` over the optional live
buffer — a missing buffer is a silent no-op (the pending map is not
consulted). -/
def Universe.queue_remove_entity (u : Universe E S) (k : Nat)
    (idx : Nat) : Universe E S :=
  match findKey k u.entity_buffers with
  | some _ =>
    { u with entity_buffers :=
        modifyKey k (fun b => b.queue_remove_entity idx) u.entity_buffers }
  | none => u

/-- Model of `Universe::queue_set_singleton`: insert (replace) into the pending
singleton map. -/
def Universe.queue_set_singleton (u : Universe E S) (k : Nat) (s : S) :
    Universe E S :=
  { u with pending_new_singletons := upsertKey k s u.pending_new_singletons }

/-- Model of `Universe::exit_ok`: store into the exit cell. -/
def Universe.exit_ok (u : Universe E S) : Universe E S :=
  { u with exit_result := some ExitResult.ok }

/-- Model of `Universe::exit_err`. -/
def Universe.exit_err (u : Universe E S) (code : Nat) : Universe E S :=
  { u with exit_result := some (ExitResult.err code) }

/-- One call a processor can make against the universe during the
process phase. -/
inductive Action (E S : Type) where
  | queueAddEntity (shape : Nat) (e : E)
  | queueRemoveEntity (shape : Nat) (idx : Nat)
  | queueSetSingleton (key : Nat) (s : S)
  | exitOk
  | exitErr (code : Nat)

def Action.isExit : Action E S → Bool
  | .exitOk => true
  | .exitErr _ => true
  | _ => false

def applyAction (u : Universe E S) : Action E S → Universe E S
  | .queueAddEntity k e => u.queue_add_entity k e
  | .queueRemoveEntity k i => u.queue_remove_entity k i
  | .queueSetSingleton k s => u.queue_set_singleton k s
  | .exitOk => u.exit_ok
  | .exitErr c => u.exit_err c

/-- The combined effect on the universe of all user code run during
one tick's process phase. -/
def applyScript (u : Universe E S) (s : List (Action E S)) : Universe E S :=
  s.foldl applyAction u

/-- A script that requests no exit. -/
def noExit (s : List (Action E S)) : Prop :=
  ∀ a ∈ s, a.isExit = false

/-- The entities handed to `Entity::process` during a tick: the
contents of every live buffer at the start of the process phase. -/
def processLog (u : Universe E S) : List E :=
  (u.entity_buffers.map (fun kb => kb.2.buffer.map (fun w => w.entity))).flatten

/-- Model of `Universe::loop_once`: run process over all live buffers and
singletons (the script); if the exit cell is now set, `take` it and
return immediately; otherwise flush every live buffer (and every
singleton — the trait's `flush` default is a no-op) and then merge the
pending maps into the live maps.  Returns the taken exit result, the
universe afterwards, and the list of entities that were processed. -/
def Universe.loop_once (u : Universe E S) (ef : E → E)
    (script : List (Action E S)) :
    Option ExitResult × Universe E S × List E :=
  let log := processLog u
  let u1 := applyScript u script
  match u1.exit_result with
  | some r => (some r, { u1 with exit_result := none }, log)
  | none =>
    let u2 := { u1 with
      entity_buffers :=
        u1.entity_buffers.map
          (fun kb : Nat × EntityBufferStruct E => (kb.1, kb.2.flush ef)) }
    let u3 := { u2 with
      singletons := extendMap u2.singletons u2.pending_new_singletons,
      pending_new_singletons := [],
      entity_buffers :=
        extendMap u2.entity_buffers u2.pending_new_entity_buffers,
      pending_new_entity_buffers := [] }
    (none, u3, log)

structure TickInfo (E : Type) where
  deltaSeen : ℚ
  processed : List E
  flushed : Bool
  deriving Repr

/-- Model of `Universe::loop_many(Count(n), FakeDelta(d))`: run `loop_once` up
to `n` times, returning early with the exit result when one is
produced, and after each completed tick overwrite `delta` and
`delta_accurate` with the fabricated duration.  (The `RealDelta` and
`Forever` variants read the wall clock or loop endlessly and are not
modelled.)  Alongside the final universe and result we collect, per
executed tick, the delta visible to `get_delta()` during its process
phase, the processed entities, and whether its flush phase ran. -/
def loopManyFake (ef : E → E) : Universe E S → Nat → ℚ →
    (Nat → List (Action E S)) →
    Universe E S × Option ExitResult × List (TickInfo E)
  | u, 0, _, _ => (u, none, [])
  | u, n+1, d, scripts =>
    let t := u.loop_once ef (scripts 0)
    let info : TickInfo E :=
      { deltaSeen := u.delta, processed := t.2.2, flushed := t.1.isNone }
    match t.1 with
    | some r => (t.2.1, some r, [info])
    | none =>
      let u2 := { t.2.1 with delta := d, delta_accurate := d }
      let k := loopManyFake ef u2 n d (fun i => scripts (i + 1))
      (k.1, k.2.1, info :: k.2.2)

/-- Model of `Universe::get_delta`. -/
def Universe.get_delta (u : Universe E S) : ℚ := u.delta

/-! ### Scheduler lemmas -/

lemma applyAction_exit {u : Universe E S} {a : Action E S}
    (h : a.isExit = false) :
    (applyAction u a).exit_result = u.exit_result := by
  cases a with
  | queueAddEntity k e =>
    show (u.queue_add_entity k e).exit_result = u.exit_result
    unfold Universe.queue_add_entity
    split
    · rfl
    · split <;> rfl
  | queueRemoveEntity k i =>
    show (u.queue_remove_entity k i).exit_result = u.exit_result
    unfold Universe.queue_remove_entity
    split <;> rfl
  | queueSetSingleton k s => rfl
  | exitOk => simp [Action.isExit] at h
  | exitErr c => simp [Action.isExit] at h

lemma applyScript_exit : ∀ {s : List (Action E S)} {u : Universe E S},
    noExit s → (applyScript u s).exit_result = u.exit_result
  | [], _, _ => rfl
  | a :: rest, u, h => by
    have h1 := h a (List.mem_cons_self a rest)
    have h2 : noExit rest := fun x hx => h x (List.mem_cons_of_mem a hx)
    show (applyScript (applyAction u a) rest).exit_result = u.exit_result
    rw [applyScript_exit h2, applyAction_exit h1]

lemma findKey_modifyKey_buffer
    {f : EntityBufferStruct E → EntityBufferStruct E}
    (hf : ∀ b, (f b).buffer = b.buffer) (k k2 : Nat) :
    ∀ l : List (Nat × EntityBufferStruct E),
    (findKey k (modifyKey k2 f l)).map (fun b => b.buffer)
      = (findKey k l).map (fun b => b.buffer)
  | [] => rfl
  | (k3, b) :: rest => by
    rw [modifyKey]
    by_cases h3 : k3 = k2
    · rw [if_pos h3, findKey, findKey]
      by_cases hk : k3 = k
      · rw [if_pos hk, if_pos hk]
        simp [hf b]
      · rw [if_neg hk, if_neg hk]
    · rw [if_neg h3, findKey, findKey]
      by_cases hk : k3 = k
      · rw [if_pos hk, if_pos hk]
      · rw [if_neg hk, if_neg hk]
        exact findKey_modifyKey_buffer hf k k2 rest

lemma applyAction_buffer (u : Universe E S) (a : Action E S) (k : Nat) :
    (findKey k (applyAction u a).entity_buffers).map (fun b => b.buffer)
      = (findKey k u.entity_buffers).map (fun b => b.buffer) := by
  cases a with
  | queueAddEntity k2 e =>
    show (findKey k (u.queue_add_entity k2 e).entity_buffers).map
      (fun b => b.buffer) = _
    unfold Universe.queue_add_entity
    split
    · dsimp only
      exact findKey_modifyKey_buffer
        (f := fun b => b.queue_add_entity e) (fun _ => rfl) k k2
        u.entity_buffers
    · split <;> rfl
  | queueRemoveEntity k2 i =>
    show (findKey k (u.queue_remove_entity k2 i).entity_buffers).map
      (fun b => b.buffer) = _
    unfold Universe.queue_remove_entity
    split
    · dsimp only
      refine findKey_modifyKey_buffer
        (f := fun b => b.queue_remove_entity i) ?_ k k2 u.entity_buffers
      intro b
      simp only [EntityBufferStruct.queue_remove_entity]
      split <;> rfl
    · rfl
  | queueSetSingleton k2 s => rfl
  | exitOk => rfl
  | exitErr c => rfl

lemma applyScript_buffer : ∀ (s : List (Action E S)) (u : Universe E S)
    (k : Nat),
    (findKey k (applyScript u s).entity_buffers).map (fun b => b.buffer)
      = (findKey k u.entity_buffers).map (fun b => b.buffer)
  | [], _, _ => rfl
  | a :: rest, u, k => by
    show (findKey k (applyScript (applyAction u a) rest).entity_buffers).map
      (fun b => b.buffer) = _
    rw [applyScript_buffer rest (applyAction u a) k, applyAction_buffer]

/-- Shared shape of `loop_once` when the exit cell is set after the
process phase: the result is taken, nothing is flushed, the pending
maps are not merged. -/
lemma loop_once_exit {u : Universe E S} {script : List (Action E S)}
    {r : ExitResult} (ef : E → E)
    (h : (applyScript u script).exit_result = some r) :
    u.loop_once ef script =
      (some r, { applyScript u script with exit_result := none },
        processLog u) := by
  unfold Universe.loop_once
  dsimp only
  rw [h]

lemma loop_once_no_exit {u : Universe E S} {script : List (Action E S)}
    (ef : E → E) (h : (applyScript u script).exit_result = none) :
    u.loop_once ef script = (none,
      { entity_buffers :=
          extendMap ((applyScript u script).entity_buffers.map
              (fun kb : Nat × EntityBufferStruct E => (kb.1, kb.2.flush ef)))
            (applyScript u script).pending_new_entity_buffers,
        pending_new_entity_buffers := [],
        singletons := extendMap (applyScript u script).singletons
          (applyScript u script).pending_new_singletons,
        pending_new_singletons := [],
        exit_result := none,
        delta := (applyScript u script).delta,
        delta_accurate := (applyScript u script).delta_accurate },
      processLog u) := by
  unfold Universe.loop_once
  dsimp only
  rw [h]

lemma appendAdds_mem_mono : ∀ (adds : List E)
    (buf : List (EntityWrapper E)) (cells : Nat → EntityIndex) (nc : Nat)
    (w : EntityWrapper E), w ∈ buf → w ∈ (appendAdds adds buf cells nc).1
  | [], _, _, _, _, hw => hw
  | e :: rest, buf, cells, nc, w, hw => by
    rw [appendAdds]
    exact appendAdds_mem_mono rest _ _ _ w
      (List.mem_append.mpr (Or.inl hw))

lemma appendAdds_mem_entity : ∀ (adds : List E)
    (buf : List (EntityWrapper E)) (cells : Nat → EntityIndex) (nc : Nat)
    (e : E), e ∈ adds →
    e ∈ (appendAdds adds buf cells nc).1.map (fun w => w.entity)
  | e2 :: rest, buf, cells, nc, e, he => by
    rw [appendAdds]
    rcases List.mem_cons.mp he with rfl | he2
    · refine List.mem_map.mpr ⟨{ entity := e, cellId := nc }, ?_, rfl⟩
      exact appendAdds_mem_mono rest _ _ _ _
        (List.mem_append.mpr (Or.inr (List.mem_singleton.mpr rfl)))
    · exact appendAdds_mem_entity rest _ _ _ e he2

/-- Every pending add is present in the live buffer after a flush. -/
lemma flush_applies_pending_adds (ef : E → E) (b : EntityBufferStruct E)
    {e : E} (he : e ∈ b.pending_adds) :
    e ∈ (b.flush ef).buffer.map (fun w => w.entity) := by
  simp only [EntityBufferStruct.flush]
  exact appendAdds_mem_entity _ _ _ _ e he

lemma loopManyFake_trace (ef : E → E) : ∀ (n : Nat) (u : Universe E S)
    (d : ℚ) (scripts : Nat → List (Action E S)),
    (∀ i, i < n → noExit (scripts i)) → u.exit_result = none →
    (loopManyFake ef u n d scripts).2.1 = none ∧
    (loopManyFake ef u n d scripts).2.2.length = n ∧
    (∀ t ∈ (loopManyFake ef u n d scripts).2.2, t.flushed = true) ∧
    ((loopManyFake ef u n d scripts).2.2.map (fun t => t.deltaSeen)
      = if n = 0 then [] else u.delta :: List.replicate (n - 1) d)
  | 0, u, d, scripts, _, _ => by
    rw [loopManyFake]
    exact ⟨rfl, rfl, fun t ht => absurd ht (List.not_mem_nil t), rfl⟩
  | n + 1, u, d, scripts, hs, hu => by
    have hs0 : noExit (scripts 0) := hs 0 (Nat.succ_pos n)
    have hnone : (applyScript u (scripts 0)).exit_result = none := by
      rw [applyScript_exit hs0, hu]
    have hL := loop_once_no_exit ef hnone
    rw [loopManyFake, hL]
    dsimp only
    obtain ⟨ih1, ih2, ih3, ih4⟩ := loopManyFake_trace ef n
      { entity_buffers :=
          extendMap ((applyScript u (scripts 0)).entity_buffers.map
              (fun kb : Nat × EntityBufferStruct E => (kb.1, kb.2.flush ef)))
            (applyScript u (scripts 0)).pending_new_entity_buffers,
        pending_new_entity_buffers := [],
        singletons := extendMap (applyScript u (scripts 0)).singletons
          (applyScript u (scripts 0)).pending_new_singletons,
        pending_new_singletons := [],
        exit_result := none,
        delta := d, delta_accurate := d }
      d (fun i => scripts (i + 1)) (fun i hi => hs (i + 1) (by omega)) rfl
    refine ⟨ih1, by rw [List.length_cons, ih2], ?_, ?_⟩
    · intro t ht
      rcases List.mem_cons.mp ht with rfl | ht2
      · rfl
      · exact ih3 t ht2
    · rw [List.map_cons, ih4]
      cases n with
      | zero => rfl
      | succ m =>
        rw [if_neg (Nat.succ_ne_zero m), if_neg (Nat.succ_ne_zero (m + 1))]
        simp [List.replicate_succ]

/-- C2 (amended): on a fresh `Universe`, `loop_many(Count(n),
FakeDelta(d))` with no exit requested runs process and flush exactly
`n` times, and `get_delta()` during the process phases reads the
previous tick's assignment: `0` (the fresh universe's delta) on the
first tick and `d` on every later one — the fabricated delta is
written only after each `loop_once` returns. -/
theorem C2_fixed_delta_tick_trace (ef : E → E) (n : Nat) (d : ℚ)
    (scripts : Nat → List (Action E S)) (hn : 1 ≤ n)
    (hs : ∀ i, i < n → noExit (scripts i)) :
    (loopManyFake ef (Universe.new E S) n d scripts).2.1 = none ∧
    (loopManyFake ef (Universe.new E S) n d scripts).2.2.length = n ∧
    (∀ t ∈ (loopManyFake ef (Universe.new E S) n d scripts).2.2,
      t.flushed = true) ∧
    (loopManyFake ef (Universe.new E S) n d scripts).2.2.map
      (fun t => t.deltaSeen) = 0 :: List.replicate (n - 1) d := by
  obtain ⟨h1, h2, h3, h4⟩ :=
    loopManyFake_trace ef n (Universe.new E S) d scripts hs rfl
  refine ⟨h1, h2, h3, ?_⟩
  rw [h4, if_neg (by omega)]
  rfl

theorem C2_fixed_delta_tick_trace_witness :
    (loopManyFake (E := Nat) (S := Nat) id (Universe.new Nat Nat) 2 1
      (fun _ => [])).2.1 = none ∧
    (loopManyFake (E := Nat) (S := Nat) id (Universe.new Nat Nat) 2 1
      (fun _ => [])).2.2.length = 2 ∧
    (∀ t ∈ (loopManyFake (E := Nat) (S := Nat) id (Universe.new Nat Nat) 2 1
      (fun _ => [])).2.2, t.flushed = true) ∧
    (loopManyFake (E := Nat) (S := Nat) id (Universe.new Nat Nat) 2 1
      (fun _ => [])).2.2.map (fun t => t.deltaSeen)
      = 0 :: List.replicate 1 1 :=
  C2_fixed_delta_tick_trace id 2 1 (fun _ => []) (by omega)
    (fun _ _ a ha => absurd ha (List.not_mem_nil a))

/-- C2 counterexample: with `n = 1`, `d = 1` on a fresh universe the
only process phase reads `get_delta() = 0`, not `1`: the claim that
`get_delta()` equals `d` during every process phase of the run is
false. -/
theorem C2_first_tick_delta_counterexample :
    (loopManyFake (E := Nat) (S := Nat) id (Universe.new Nat Nat) 1 1
      (fun _ => [])).2.2.map (fun t => t.deltaSeen) = [0] ∧
    ((0 : ℚ) ≠ 1) :=
  ⟨rfl, by norm_num⟩

/-- C3: if user code requests an exit during a tick's process phase,
`loop_once` returns the stored result immediately after process: the
flush phase does not run, every live buffer's dense storage is exactly
what it was before the tick, and the pending maps are left unmerged
(the returned universe is the staged universe with the exit cell
taken). -/
theorem C3_exit_skips_flush (ef : E → E) (u : Universe E S)
    (script : List (Action E S)) (r : ExitResult)
    (h : (applyScript u script).exit_result = some r) :
    u.loop_once ef script =
      (some r, { applyScript u script with exit_result := none },
        processLog u) ∧
    ∀ k, (findKey k (applyScript u script).entity_buffers).map
        (fun b => b.buffer)
      = (findKey k u.entity_buffers).map (fun b => b.buffer) :=
  ⟨loop_once_exit ef h, applyScript_buffer script u⟩

theorem C3_exit_skips_flush_witness :
    ((applyScript (Universe.new Nat Nat) [Action.exitErr 5]).exit_result
      = some (ExitResult.err 5)) ∧
    ((Universe.new Nat Nat).loop_once id [Action.exitErr 5] =
      (some (ExitResult.err 5),
        { applyScript (Universe.new Nat Nat) [Action.exitErr 5] with
            exit_result := none },
        processLog (Universe.new Nat Nat)) ∧
    ∀ k, (findKey k (applyScript (Universe.new Nat Nat)
        [Action.exitErr 5]).entity_buffers).map (fun b => b.buffer)
      = (findKey k (Universe.new Nat Nat).entity_buffers).map
          (fun b => b.buffer)) :=
  ⟨rfl, C3_exit_skips_flush id (Universe.new Nat Nat) [Action.exitErr 5]
    (ExitResult.err 5) rfl⟩

/-- A universe with one live, empty buffer registered for shape 0,
used for the exit-tick scenarios. -/
def exitTickUniverse : Universe Nat Nat :=
  { Universe.new Nat Nat with
      entity_buffers := [(0, EntityBufferStruct.new Nat)] }

/-- C4 counterexample: queue an entity and call `exit_ok` in the same
tick; `loop_once` exits without flushing, but the staged add is NOT
discarded — driving `loop_once` once more flushes it into the live
buffer, which then contains the entity. -/
theorem C4_counterexample :
    (exitTickUniverse.loop_once id
      [Action.queueAddEntity 0 7, Action.exitOk]).1 = some ExitResult.ok ∧
    (findKey 0 (((exitTickUniverse.loop_once id
        [Action.queueAddEntity 0 7, Action.exitOk]).2.1.loop_once id
        []).2.1.entity_buffers)).map
      (fun b => b.buffer.map (fun w => w.entity)) = some [7] ∧
    some [7] ≠ some ([] : List Nat) := by
  refine ⟨rfl, rfl, by decide⟩

/-- C4 (amended): when an exit is requested during tick N's process
phase, the mutations staged during tick N are not applied during tick
N — flush is skipped and the returned universe is the staged universe
(pending queues intact, pending maps unmerged) with the exit cell
taken.  They are, however, retained, not discarded: any entity still
in a buffer's pending-add queue is present in that buffer's dense
storage after the next flush that does run. -/
theorem C4_staged_mutations_retained (ef : E → E) (u : Universe E S)
    (script : List (Action E S)) (r : ExitResult)
    (h : (applyScript u script).exit_result = some r) :
    u.loop_once ef script =
      (some r, { applyScript u script with exit_result := none },
        processLog u) ∧
    ∀ (b : EntityBufferStruct E) (e : E), e ∈ b.pending_adds →
      e ∈ (b.flush ef).buffer.map (fun w => w.entity) :=
  ⟨loop_once_exit ef h, fun b _ he => flush_applies_pending_adds ef b he⟩

theorem C4_staged_mutations_retained_witness :
    ((applyScript exitTickUniverse
      [Action.queueAddEntity 0 7, Action.exitOk]).exit_result
      = some ExitResult.ok) ∧
    (exitTickUniverse.loop_once id
        [Action.queueAddEntity 0 7, Action.exitOk] =
      (some ExitResult.ok,
        { applyScript exitTickUniverse
            [Action.queueAddEntity 0 7, Action.exitOk] with
            exit_result := none },
        processLog exitTickUniverse) ∧
    ∀ (b : EntityBufferStruct Nat) (e : Nat), e ∈ b.pending_adds →
      e ∈ (b.flush id).buffer.map (fun w => w.entity)) :=
  ⟨rfl, C4_staged_mutations_retained id exitTickUniverse
    [Action.queueAddEntity 0 7, Action.exitOk] ExitResult.ok rfl⟩

/-- C8: removal with an out-of-range index changes nothing at the
buffer level, and removal through a shape with no registered live
buffer is a silent no-op at the `Universe` level. -/
theorem C8_stale_removals_are_noops :
    (∀ (b : EntityBufferStruct E) (idx : Nat), b.buffer.length ≤ idx →
      b.queue_remove_entity idx = b) ∧
    (∀ (u : Universe E S) (k idx : Nat),
      findKey k u.entity_buffers = none →
      u.queue_remove_entity k idx = u) := by
  constructor
  · intro b idx h
    rw [EntityBufferStruct.queue_remove_entity.eq_def, if_pos h]
  · intro u k idx h
    unfold Universe.queue_remove_entity
    rw [h]

theorem C8_stale_removals_are_noops_witness :
    ((threeBuf 1 2 3 : EntityBufferStruct Nat).buffer.length ≤ 5 ∧
      (threeBuf 1 2 3 : EntityBufferStruct Nat).queue_remove_entity 5
        = threeBuf 1 2 3) ∧
    (findKey 9 (Universe.new Nat Nat).entity_buffers = none ∧
      (Universe.new Nat Nat).queue_remove_entity 9 0
        = Universe.new Nat Nat) :=
  ⟨⟨by decide, (C8_stale_removals_are_noops (E := Nat) (S := Nat)).1
      (threeBuf 1 2 3) 5 (by decide)⟩,
    ⟨rfl, (C8_stale_removals_are_noops (E := Nat) (S := Nat)).2
      (Universe.new Nat Nat) 9 0 rfl⟩⟩

theorem C9_index_cell_invariant_witness :
    GoodBuffer ((threeBuf 1 2 3 : EntityBufferStruct Nat).queue_remove_entity 0) ∧
    (GoodBuffer (((threeBuf 1 2 3 : EntityBufferStruct Nat).queue_remove_entity 0).flush id) ∧
    (∀ c, c < ((threeBuf 1 2 3 : EntityBufferStruct Nat).queue_remove_entity 0).nextCell →
      ((threeBuf 1 2 3 : EntityBufferStruct Nat).queue_remove_entity 0).cells c = EntityIndex.freed →
      (((threeBuf 1 2 3 : EntityBufferStruct Nat).queue_remove_entity 0).flush id).cells c = EntityIndex.freed) ∧
    ((∀ c, ((threeBuf 1 2 3 : EntityBufferStruct Nat).queue_remove_entity 0).cells c ≠ EntityIndex.moving) →
      ∀ c, (((threeBuf 1 2 3 : EntityBufferStruct Nat).queue_remove_entity 0).flush id).cells c ≠ EntityIndex.moving)) :=
  ⟨⟨by unfold cellsAligned; decide, by unfold cidInjective; decide,
    by decide, by decide⟩,
    C9_index_cell_invariant id _
      ⟨by unfold cellsAligned; decide, by unfold cidInjective; decide,
        by decide, by decide⟩⟩

/-- C10: an entity of a not-yet-registered shape queued against a
fresh universe sits in the pending buffer map: the first `loop_once`
neither contains nor processes it (the pending buffer is merged into
the live map only at the end of the tick), the second `loop_once`
appends it to the live buffer at its flush, and the third `loop_once`
is the first to process it — one tick later than an entity queued for
an already-registered shape, which is appended at the first flush and
processed by the second `loop_once`. -/
theorem C10_new_shape_one_tick_delay (E S : Type) (ef : E → E) (e : E) :
    ((((Universe.new E S).queue_add_entity 0 e).loop_once ef []).2.2
      = []) ∧
    ((findKey 0 ((((Universe.new E S).queue_add_entity 0 e).loop_once ef
        []).2.1.entity_buffers)).map
      (fun b => (b.buffer.map (fun w => w.entity), b.pending_adds))
      = some ([], [e])) ∧
    (((((Universe.new E S).queue_add_entity 0 e).loop_once ef
        []).2.1.loop_once ef []).2.2 = []) ∧
    ((findKey 0 (((((Universe.new E S).queue_add_entity 0 e).loop_once ef
        []).2.1.loop_once ef []).2.1.entity_buffers)).map
      (fun b => b.buffer.map (fun w => w.entity)) = some [e]) ∧
    ((((((Universe.new E S).queue_add_entity 0 e).loop_once ef
        []).2.1.loop_once ef []).2.1.loop_once ef []).2.2 = [e]) ∧
    ((({ Universe.new E S with
        entity_buffers := [(0, EntityBufferStruct.new E)] }.queue_add_entity
        0 e).loop_once ef []).2.2 = []) ∧
    (((({ Universe.new E S with
        entity_buffers := [(0, EntityBufferStruct.new E)] }.queue_add_entity
        0 e).loop_once ef []).2.1.loop_once ef []).2.2 = [e]) :=
  ⟨rfl, rfl, rfl, rfl, rfl, rfl, rfl⟩

end Bina
